import Mathlib

/-!
Verification development for the tribelife backend.

Shallow embedding of the real-time chat message handlers (room:message,
dm:message), the mention scanner, the notification fan-out effects, and the
scheduled beacon match engine (runBeaconMatching), translated from the
TypeScript source.  Strings are modelled as lists of characters, database
tables as lists of rows, timestamps as natural numbers (interval arithmetic
in hours), and the external comparator as a function returning Except
(an exception is the error case, mirroring the try/catch at the call site).
-/

namespace TribeLife

/-! ## Character and string utilities -/

/-- Word character class of the mention regex: a-z, A-Z, 0-9 or underscore. -/
def isWordChar (c : Char) : Bool :=
  ('a' ≤ c && c ≤ 'z') || ('A' ≤ c && c ≤ 'Z') || ('0' ≤ c && c ≤ '9') || c = '_'

/-- Trim of a character list: drop whitespace from both ends,
mirroring String.prototype.trim applied to the inbound content. -/
def trimChars (l : List Char) : List Char :=
  ((l.dropWhile Char.isWhitespace).reverse.dropWhile Char.isWhitespace).reverse

/-- Scanner state machine for the global regex searching for an at sign
followed by one or more word characters, capturing the word-character run.
The accumulator holds the reversed run currently being collected after an
at sign (or none when not inside a candidate token).  Mirrors the
non-overlapping left-to-right semantics of matchAll. -/
def scanAux : List Char → Option (List Char) → List (List Char)
  | [], none => []
  | [], some tok => if tok = [] then [] else [tok.reverse]
  | c :: rest, none =>
      if c = '@' then scanAux rest (some []) else scanAux rest none
  | c :: rest, some tok =>
      if isWordChar c then scanAux rest (some (c :: tok))
      else if tok = [] then
        (if c = '@' then scanAux rest (some []) else scanAux rest none)
      else
        tok.reverse :: (if c = '@' then scanAux rest (some []) else scanAux rest none)

/-- All captured mention tokens of the content, in order of appearance. -/
def scanMentions (content : List Char) : List (List Char) :=
  scanAux content none

/-- Captured tokens normalized to lowercase, as built by the room:message
handler before the directory lookup. -/
def mentionHandles (content : List Char) : List (List Char) :=
  (scanMentions content).map (fun t => t.map Char.toLower)

/-! ## Data model (rows of the relational schema used by the handlers) -/

/-- Row of user_profiles restricted to the columns the handlers read. -/
structure Profile where
  userId : Nat
  handle : List Char
  timezone : Option (List Char)
  expoPushToken : Option (List Char)
deriving DecidableEq

/-- Row of conversations. -/
structure ConversationRow where
  id : Nat
  createdAt : Nat
  lastMessageAt : Nat
deriving DecidableEq

/-- Row of conversation_participants (serial id omitted, never read). -/
structure ParticipantRow where
  conversationId : Nat
  userId : Nat
deriving DecidableEq

/-- Row of messages.  senderId is nullable in the schema (set null on user
deletion); exactly one of roomId / conversationId is set by the handlers. -/
structure MessageRow where
  id : Nat
  content : List Char
  senderId : Option Nat
  roomId : Option (List Char)
  conversationId : Option Nat
  mentions : List Nat
  createdAt : Nat
deriving DecidableEq

/-- Typed notification data payload, one variant per call site. -/
inductive NotifData where
  | mentionData (messageId : Nat) (roomId : List Char) (senderHandle : List Char)
  | newDmData (conversationId : Nat) (senderHandle : List Char)
  | beaconMatchData (beaconId matchedBeaconId : Nat) (timezone : List Char)
deriving DecidableEq

/-- Row of notifications (serial id omitted, never read). -/
structure NotificationRow where
  userId : Nat
  ntype : String
  title : List Char
  body : List Char
  payload : NotifData
  isRead : Bool
  createdAt : Nat
deriving DecidableEq

/-- Row of beacons restricted to the columns the matcher touches.  The
embedding column stores a JSON-serialized keyword list; it is modelled
already parsed (JSON.parse of the stored text). -/
structure BeaconRow where
  id : Nat
  userId : Nat
  rawText : List Char
  parsedIntent : Option (List Char)
  embedding : Option (List (List Char))
  timezone : Option (List Char)
  isActive : Bool
  isSanitized : Bool
  lastMatchedAt : Option Nat
  expiresAt : Option Nat
  createdAt : Nat
deriving DecidableEq

/-- Row of beacon_matches.  similarityScore is stored by the source as a
fixed three-decimal rendering of the comparator score; it is modelled as the
rational score itself (the rendering is a function of the score, so identity
of stored scores coincides with identity of comparator scores). -/
structure MatchEdgeRow where
  beaconId : Nat
  matchedBeaconId : Nat
  similarityScore : Rat
  matchReason : List Char
  notifiedAt : Option Nat
  viewedAt : Option Nat
  createdAt : Nat
deriving DecidableEq

/-- The relational store as seen by the handlers and the matcher. -/
structure Db where
  profiles : List Profile
  conversations : List ConversationRow
  participants : List ParticipantRow
  messages : List MessageRow
  notifications : List NotificationRow
  beacons : List BeaconRow
  beaconMatches : List MatchEdgeRow
  nextMessageId : Nat
deriving DecidableEq

/-! ## Socket-facing effect records -/

/-- Payload of the outbound room:message event. -/
structure RoomMsgPayload where
  id : Nat
  content : List Char
  senderId : Nat
  senderHandle : List Char
  roomId : List Char
  createdAt : Nat
  mentions : List Nat
deriving DecidableEq

/-- Payload of the outbound dm:message event. -/
structure DmMsgPayload where
  id : Nat
  content : List Char
  senderId : Nat
  senderHandle : List Char
  conversationId : Nat
  createdAt : Nat
deriving DecidableEq

/-- One socket emission performed by a handler. -/
inductive Emit where
  | roomMsg (room : List Char) (p : RoomMsgPayload)
  | dmMsg (conversationId : Nat) (p : DmMsgPayload)
  | notifNew (toUserId : Nat) (ntype : String) (title body : List Char)
      (conversationId : Option Nat)
deriving DecidableEq

/-- Typed push data payload, one variant per call site. -/
inductive PushData where
  | mentionPush (roomId : List Char)
  | newDmPush (conversationId : Nat)
  | beaconMatchPush (beaconId : Nat)
deriving DecidableEq

/-- One sendPushToUser invocation (the push transport is an opaque sink;
the call with its arguments is the observable effect). -/
structure PushReq where
  token : Option (List Char)
  title : List Char
  body : List Char
  payload : PushData
deriving DecidableEq

/-- Result of one inbound chat event: updated store, socket emissions and
push submissions, in order. -/
structure ChatResult where
  db : Db
  emits : List Emit
  pushes : List PushReq
deriving DecidableEq

/-- Per-connection data attached by the socket auth middleware. -/
structure SessionData where
  userId : Nat
  timezone : List Char
  handle : List Char
deriving DecidableEq

/-- Push token of a user, looked up from user_profiles with limit 1. -/
def lookupPushToken (db : Db) (uid : Nat) : Option (List Char) :=
  (db.profiles.find? (fun p => p.userId == uid)).bind (fun p => p.expoPushToken)

/-- Room key of a timezone room. -/
def roomKey (tz : List Char) : List Char :=
  "timezone:".toList ++ tz

/-- Title of a mention notification. -/
def mentionTitle (handle : List Char) : List Char :=
  '@' :: handle ++ " mentioned you".toList

/-- Title of a new_dm notification. -/
def dmTitle (handle : List Char) : List Char :=
  "Message from @".toList ++ handle

/-! ## Message ingest: room:message handler -/

/-- The room:message handler.  Trims and validates the content, scans for
mention tokens, resolves only the first token against user_profiles (the
source queries the directory with mentionedHandles at index zero), persists
the message, broadcasts to the timezone room, and fans out one mention
notification (row, live event, push) per resolved mention other than the
sender. -/
def roomMessage (db : Db) (sess : SessionData) (now : Nat) (rawContent : List Char) :
    ChatResult :=
  let content := trimChars rawContent
  if content = [] ∨ 2000 < content.length then ⟨db, [], []⟩ else
  let handles := mentionHandles content
  let mentionedUserIds :=
    match handles with
    | [] => []
    | h :: _ => (db.profiles.filter (fun p => p.handle == h)).map (fun p => p.userId)
  let timezoneRoom := roomKey sess.timezone
  let msg : MessageRow :=
    { id := db.nextMessageId, content := content, senderId := some sess.userId,
      roomId := some timezoneRoom, conversationId := none,
      mentions := mentionedUserIds, createdAt := now }
  let recipients := mentionedUserIds.filter (fun mid => mid ≠ sess.userId)
  let title := mentionTitle sess.handle
  let newNotifs : List NotificationRow := recipients.map (fun mid =>
    { userId := mid, ntype := "mention", title := title, body := content.take 100,
      payload := NotifData.mentionData msg.id timezoneRoom sess.handle,
      isRead := false, createdAt := now })
  let notifEmits : List Emit := recipients.map (fun mid =>
    Emit.notifNew mid "mention" title (content.take 100) none)
  let pushReqs : List PushReq := recipients.map (fun mid =>
    { token := lookupPushToken db mid, title := title, body := content.take 100,
      payload := PushData.mentionPush timezoneRoom })
  { db := { db with
      messages := db.messages ++ [msg],
      notifications := db.notifications ++ newNotifs,
      nextMessageId := db.nextMessageId + 1 },
    emits := Emit.roomMsg timezoneRoom
      { id := msg.id, content := content, senderId := sess.userId,
        senderHandle := sess.handle, roomId := timezoneRoom, createdAt := now,
        mentions := mentionedUserIds } :: notifEmits,
    pushes := pushReqs }

/-! ## Message ingest: dm:message handler -/

/-- The dm:message handler.  Trims and validates the content, verifies the
sender is a persisted participant of the conversation (silent drop
otherwise), persists the message, bumps the conversation timestamp,
broadcasts to the conversation room, and fans out one new_dm notification
per other participant. -/
def dmMessage (db : Db) (sess : SessionData) (now : Nat) (conversationId : Nat)
    (rawContent : List Char) : ChatResult :=
  let content := trimChars rawContent
  if content = [] ∨ 2000 < content.length then ⟨db, [], []⟩ else
  let participation := db.participants.filter (fun p =>
    p.conversationId == conversationId && p.userId == sess.userId)
  if participation = [] then ⟨db, [], []⟩ else
  let msg : MessageRow :=
    { id := db.nextMessageId, content := content, senderId := some sess.userId,
      roomId := none, conversationId := some conversationId,
      mentions := [], createdAt := now }
  let conversations' := db.conversations.map (fun c =>
    if c.id = conversationId then { c with lastMessageAt := now } else c)
  let otherParticipants := db.participants.filter (fun p =>
    p.conversationId == conversationId)
  let recipients := (otherParticipants.map (fun p => p.userId)).filter
    (fun uid => uid ≠ sess.userId)
  let title := dmTitle sess.handle
  let newNotifs : List NotificationRow := recipients.map (fun uid =>
    { userId := uid, ntype := "new_dm", title := title, body := content.take 100,
      payload := NotifData.newDmData conversationId sess.handle,
      isRead := false, createdAt := now })
  let notifEmits : List Emit := recipients.map (fun uid =>
    Emit.notifNew uid "new_dm" title (content.take 100) (some conversationId))
  let pushReqs : List PushReq := recipients.map (fun uid =>
    { token := lookupPushToken db uid, title := title, body := content.take 100,
      payload := PushData.newDmPush conversationId })
  { db := { db with
      conversations := conversations',
      messages := db.messages ++ [msg],
      notifications := db.notifications ++ newNotifs,
      nextMessageId := db.nextMessageId + 1 },
    emits := Emit.dmMsg conversationId
      { id := msg.id, content := content, senderId := sess.userId,
        senderHandle := sess.handle, conversationId := conversationId,
        createdAt := now } :: notifEmits,
    pushes := pushReqs }

/-! ## Beacon match engine -/

/-- Result reported by the external comparator. -/
structure MatchResult where
  score : Rat
  reason : List Char
  isMatch : Bool
deriving DecidableEq

/-- The external comparator: normalized intent text and keywords of each
beacon in, Except models the try/catch at the call site (error = the call
threw). -/
def Comparator : Type :=
  List Char → List (List Char) → List Char → List (List Char) →
    Except Unit MatchResult

/-- Intent text passed to the comparator: parsedIntent, falling back to
rawText. -/
def beaconIntent (b : BeaconRow) : List Char :=
  b.parsedIntent.getD b.rawText

/-- Keywords passed to the comparator: the parsed embedding column, or the
empty list when the column is null. -/
def beaconKeywords (b : BeaconRow) : List (List Char) :=
  b.embedding.getD []

/-- Qualifying filter of the run: active, sanitized, and expiresAt null or
in the future (timestamps in hours). -/
def qualifyingBeacon (t : Nat) (b : BeaconRow) : Bool :=
  b.isActive && b.isSanitized &&
    (match b.expiresAt with
     | none => true
     | some e => decide (t < e))

/-- Grouping key: the beacon timezone, defaulting to UTC when null. -/
def tzKey (b : BeaconRow) : List Char :=
  b.timezone.getD "UTC".toList

/-- Append a beacon to the bucket of its key, creating the bucket at the
end when absent (JS Map insertion-order semantics). -/
def insertGrouped : List (List Char × List BeaconRow) → List Char → BeaconRow →
    List (List Char × List BeaconRow)
  | [], tz, b => [(tz, [b])]
  | (k, v) :: rest, tz, b =>
      if k = tz then (k, v ++ [b]) :: rest
      else (k, v) :: insertGrouped rest tz b

/-- Partition of the beacon list into timezone buckets, in first-seen key
order. -/
def groupByTimezone (bs : List BeaconRow) : List (List Char × List BeaconRow) :=
  bs.foldl (fun acc b => insertGrouped acc (tzKey b) b) []

/-- Every unordered pair of a list, each exactly once, in the double-loop
order of the source (index i outer, j greater inner). -/
def pairsOf : List α → List (α × α)
  | [] => []
  | x :: xs => xs.map (fun y => (x, y)) ++ pairsOf xs

/-- The idempotency-guard query: does any match edge exist for the unordered
pair of beacon ids with createdAt inside the trailing 24 hour window. -/
def hasRecentEdge (edges : List MatchEdgeRow) (t : Nat) (i j : Nat) : Bool :=
  edges.any (fun e =>
    ((e.beaconId == i && e.matchedBeaconId == j) ||
     (e.beaconId == j && e.matchedBeaconId == i)) &&
    decide (t < e.createdAt + 24))

/-- Conflict test of the unique (beaconId, matchedBeaconId) constraint. -/
def conflictsWith (edges : List MatchEdgeRow) (e : MatchEdgeRow) : Bool :=
  edges.any (fun x => x.beaconId == e.beaconId && x.matchedBeaconId == e.matchedBeaconId)

/-- Insert one row honouring onConflictDoNothing over the unique ordered
pair constraint. -/
def insertEdgeNC (edges : List MatchEdgeRow) (e : MatchEdgeRow) : List MatchEdgeRow :=
  if conflictsWith edges e then edges else edges ++ [e]

/-- Multi-row insert with onConflictDoNothing, left to right. -/
def insertEdges (edges : List MatchEdgeRow) (new : List MatchEdgeRow) :
    List MatchEdgeRow :=
  new.foldl insertEdgeNC edges

/-- Directed match edge row built from a comparator result at time t. -/
def mkEdge (a b : BeaconRow) (r : MatchResult) (t : Nat) : MatchEdgeRow :=
  { beaconId := a.id, matchedBeaconId := b.id, similarityScore := r.score,
    matchReason := r.reason, notifiedAt := none, viewedAt := none, createdAt := t }

/-- Title of a beacon_match notification row. -/
def matchNotifTitle : List Char := "✨ Beacon Match Found!".toList

/-- Title of a beacon_match push. -/
def matchPushTitle : List Char := "✨ Beacon Match!".toList

/-- Accumulator of one run: the store plus push submissions and the two
observability counters. -/
structure RunAcc where
  db : Db
  pushes : List PushReq
  totalComparisons : Nat
  totalMatches : Nat
deriving DecidableEq

/-- Initial accumulator of a run over a store. -/
def initAcc (db : Db) : RunAcc :=
  { db := db, pushes := [], totalComparisons := 0, totalMatches := 0 }

/-- Body of the inner pair loop: skip same-owner pairs, skip pairs with a
recent edge, count the comparison, invoke the comparator (a throw is caught:
logged and skipped), and on a reported match insert both directed edges
(onConflictDoNothing), both notifications, both pushes, and stamp
lastMatchedAt on both beacons. -/
def processPair (cmp : Comparator) (t : Nat) (tz : List Char) (acc : RunAcc)
    (a b : BeaconRow) : RunAcc :=
  if a.userId = b.userId then acc
  else if hasRecentEdge acc.db.beaconMatches t a.id b.id then acc
  else
    let acc1 := { acc with totalComparisons := acc.totalComparisons + 1 }
    match cmp (beaconIntent a) (beaconKeywords a) (beaconIntent b) (beaconKeywords b) with
    | Except.error _ => acc1
    | Except.ok r =>
      if r.isMatch then
        let nA : NotificationRow :=
          { userId := a.userId, ntype := "beacon_match", title := matchNotifTitle,
            body := r.reason, payload := NotifData.beaconMatchData a.id b.id tz,
            isRead := false, createdAt := t }
        let nB : NotificationRow :=
          { userId := b.userId, ntype := "beacon_match", title := matchNotifTitle,
            body := r.reason, payload := NotifData.beaconMatchData b.id a.id tz,
            isRead := false, createdAt := t }
        let pA : PushReq :=
          { token := lookupPushToken acc1.db a.userId, title := matchPushTitle,
            body := r.reason, payload := PushData.beaconMatchPush a.id }
        let pB : PushReq :=
          { token := lookupPushToken acc1.db b.userId, title := matchPushTitle,
            body := r.reason, payload := PushData.beaconMatchPush b.id }
        { acc1 with
          totalMatches := acc1.totalMatches + 1,
          db := { acc1.db with
            beaconMatches := insertEdges acc1.db.beaconMatches [mkEdge a b r t, mkEdge b a r t],
            notifications := acc1.db.notifications ++ [nA, nB],
            beacons := acc1.db.beacons.map (fun x =>
              if x.id = a.id ∨ x.id = b.id then { x with lastMatchedAt := some t } else x) },
          pushes := acc1.pushes ++ [pA, pB] }
      else acc1

/-- One scheduled run of the beacon matcher at time t: load qualifying
beacons, return unchanged when fewer than two, otherwise group by timezone
and fold the pair loop over every bucket. -/
def runBeaconMatching (cmp : Comparator) (t : Nat) (db : Db) : RunAcc :=
  let activeBeacons := db.beacons.filter (qualifyingBeacon t)
  if activeBeacons.length < 2 then initAcc db
  else
    (groupByTimezone activeBeacons).foldl
      (fun acc g => (pairsOf g.2).foldl
        (fun acc2 p => processPair cmp t g.1 acc2 p.1 p.2) acc)
      (initAcc db)

/-- Flattened enumeration of the nested loops: every (timezone, pair)
iteration of a run, in execution order. -/
def pairTzList (groups : List (List Char × List BeaconRow)) :
    List (List Char × BeaconRow × BeaconRow) :=
  groups.flatMap (fun g => (pairsOf g.2).map (fun p => (g.1, p.1, p.2)))

/-- Edge-table effect of one pair iteration, as a function of the current
edge table alone (the guards and inserts of processPair read no other state). -/
def pairEdgesStep (cmp : Comparator) (t : Nat) (E : List MatchEdgeRow)
    (a b : BeaconRow) : List MatchEdgeRow :=
  if a.userId = b.userId then E
  else if hasRecentEdge E t a.id b.id then E
  else
    match cmp (beaconIntent a) (beaconKeywords a) (beaconIntent b) (beaconKeywords b) with
    | Except.error _ => E
    | Except.ok r =>
      if r.isMatch then insertEdges E [mkEdge a b r t, mkEdge b a r t] else E

/-- Edge-table semantics of a whole run body over a beacon list. -/
def runEdges (cmp : Comparator) (t : Nat) (E : List MatchEdgeRow)
    (bs : List BeaconRow) : List MatchEdgeRow :=
  (pairTzList (groupByTimezone (bs.filter (qualifyingBeacon t)))).foldl
    (fun E x => pairEdgesStep cmp t E x.2.1 x.2.2) E

/-- Projection of a beacon to the fields the run reads (everything except
lastMatchedAt, the only beacon field the run writes). -/
def matchView (b : BeaconRow) : BeaconRow :=
  { b with lastMatchedAt := none }

/-! ## Structural lemmas about the run -/

/-- The nested bucket/pair loops are the fold of the pair body over the
flattened iteration list. -/
lemma foldl_groups_flat (cmp : Comparator) (t : Nat)
    (groups : List (List Char × List BeaconRow)) (acc : RunAcc) :
    groups.foldl (fun acc g => (pairsOf g.2).foldl
        (fun acc2 p => processPair cmp t g.1 acc2 p.1 p.2) acc) acc
      = (pairTzList groups).foldl
        (fun acc x => processPair cmp t x.1 acc x.2.1 x.2.2) acc := by
  induction groups generalizing acc with
  | nil => rfl
  | cons g rest ih =>
      simp only [List.foldl_cons, pairTzList, List.flatMap_cons, List.foldl_append,
        List.foldl_map]
      rw [ih]
      rfl

/-- The edge table after one pair iteration depends only on the edge table
before it. -/
lemma processPair_edges (cmp : Comparator) (t : Nat) (tz : List Char)
    (acc : RunAcc) (a b : BeaconRow) :
    (processPair cmp t tz acc a b).db.beaconMatches
      = pairEdgesStep cmp t acc.db.beaconMatches a b := by
  unfold processPair pairEdgesStep
  split
  · rfl
  · split
    · rfl
    · split
      · rfl
      · split <;> rfl

/-- Edge-table projection of the flattened fold. -/
lemma foldl_processPair_edges (cmp : Comparator) (t : Nat)
    (P : List (List Char × BeaconRow × BeaconRow)) (acc : RunAcc) :
    ((P.foldl (fun acc x => processPair cmp t x.1 acc x.2.1 x.2.2) acc).db.beaconMatches)
      = P.foldl (fun E x => pairEdgesStep cmp t E x.2.1 x.2.2) acc.db.beaconMatches := by
  induction P generalizing acc with
  | nil => rfl
  | cons x rest ih =>
      simp only [List.foldl_cons]
      rw [ih, processPair_edges]

/-- A list shorter than two beacons yields no pair iterations. -/
lemma pairTzList_short (bs : List BeaconRow) (h : bs.length < 2) :
    pairTzList (groupByTimezone bs) = [] := by
  match bs with
  | [] => rfl
  | [b] => rfl
  | b1 :: b2 :: rest => simp at h; omega

/-- The edge table of a whole run equals the edge-only semantics. -/
lemma run_edges_eq (cmp : Comparator) (t : Nat) (db : Db) :
    (runBeaconMatching cmp t db).db.beaconMatches
      = runEdges cmp t db.beaconMatches db.beacons := by
  by_cases h : (db.beacons.filter (qualifyingBeacon t)).length < 2
  · unfold runBeaconMatching runEdges
    rw [if_pos h, pairTzList_short _ h]
    rfl
  · unfold runBeaconMatching runEdges
    rw [if_neg h, foldl_groups_flat, foldl_processPair_edges]
    rfl

/-! ## Monotonicity of the edge table -/

lemma mem_insertEdgeNC {E : List MatchEdgeRow} {e : MatchEdgeRow}
    (x : MatchEdgeRow) (h : e ∈ E) : e ∈ insertEdgeNC E x := by
  unfold insertEdgeNC
  split
  · exact h
  · exact List.mem_append_left _ h

lemma mem_insertEdges {E : List MatchEdgeRow} {e : MatchEdgeRow}
    (l : List MatchEdgeRow) (h : e ∈ E) : e ∈ insertEdges E l := by
  induction l generalizing E with
  | nil => exact h
  | cons x rest ih => exact ih (mem_insertEdgeNC x h)

lemma mem_pairEdgesStep (cmp : Comparator) (t : Nat) {E : List MatchEdgeRow}
    {e : MatchEdgeRow} (a b : BeaconRow) (h : e ∈ E) :
    e ∈ pairEdgesStep cmp t E a b := by
  unfold pairEdgesStep
  split
  · exact h
  · split
    · exact h
    · split
      · exact h
      · split
        · exact mem_insertEdges _ h
        · exact h

lemma mem_foldl_pairEdgesStep (cmp : Comparator) (t : Nat)
    (P : List (List Char × BeaconRow × BeaconRow)) {E : List MatchEdgeRow}
    {e : MatchEdgeRow} (h : e ∈ E) :
    e ∈ P.foldl (fun E x => pairEdgesStep cmp t E x.2.1 x.2.2) E := by
  induction P generalizing E with
  | nil => exact h
  | cons x rest ih => exact ih (mem_pairEdgesStep cmp t _ _ h)

lemma hasRecentEdge_mono {E E' : List MatchEdgeRow} {t i j : Nat}
    (hsub : ∀ e ∈ E, e ∈ E') (h : hasRecentEdge E t i j = true) :
    hasRecentEdge E' t i j = true := by
  simp only [hasRecentEdge, List.any_eq_true] at h ⊢
  obtain ⟨e, he, hp⟩ := h
  exact ⟨e, hsub e he, hp⟩

lemma conflictsWith_iff {E : List MatchEdgeRow} {e : MatchEdgeRow} :
    conflictsWith E e = true
      ↔ ∃ x ∈ E, x.beaconId = e.beaconId ∧ x.matchedBeaconId = e.matchedBeaconId := by
  simp [conflictsWith, List.any_eq_true]

/-- After an insert with conflict handling, a row with the inserted ordered
pair of ids is present. -/
lemma pair_present_insertEdgeNC (E : List MatchEdgeRow) (e : MatchEdgeRow) :
    ∃ x ∈ insertEdgeNC E e,
      x.beaconId = e.beaconId ∧ x.matchedBeaconId = e.matchedBeaconId := by
  unfold insertEdgeNC
  split
  · next h => exact conflictsWith_iff.mp h
  · exact ⟨e, List.mem_append_right _ (List.mem_singleton.mpr rfl), rfl, rfl⟩

/-! ## Saturation: pairs already absorbed by a table leave it unchanged -/

/-- If every row produced by a pair iteration over table E is present in a
table E', the same pair iteration leaves E' unchanged. -/
lemma pairEdgesStep_absorb (cmp : Comparator) (t : Nat) {E E' : List MatchEdgeRow}
    (a b : BeaconRow)
    (hsub : ∀ e ∈ pairEdgesStep cmp t E a b, e ∈ E') :
    pairEdgesStep cmp t E' a b = E' := by
  by_cases huser : a.userId = b.userId
  · unfold pairEdgesStep; simp [huser]
  · have hEsub : ∀ e ∈ E, e ∈ E' := fun e he =>
      hsub e (mem_pairEdgesStep cmp t a b he)
    by_cases hded : hasRecentEdge E t a.id b.id = true
    · have hded' : hasRecentEdge E' t a.id b.id = true := hasRecentEdge_mono hEsub hded
      unfold pairEdgesStep; simp [huser, hded']
    · by_cases hded' : hasRecentEdge E' t a.id b.id = true
      · unfold pairEdgesStep; simp [huser, hded']
      · rcases hcmp : cmp (beaconIntent a) (beaconKeywords a) (beaconIntent b)
            (beaconKeywords b) with err | r
        · unfold pairEdgesStep; simp [huser, hded', hcmp]
        · by_cases hm : r.isMatch
          · -- both ordered pairs are present in E', so both inserts conflict
            have hsub' : ∀ e ∈ insertEdges E [mkEdge a b r t, mkEdge b a r t], e ∈ E' := by
              intro e he
              apply hsub
              unfold pairEdgesStep
              simp only [huser, hded, hcmp, hm, if_false, if_true]
              simpa using he
            have hmemAB : ∃ x ∈ E', x.beaconId = a.id ∧ x.matchedBeaconId = b.id := by
              obtain ⟨x, hx, hb, hmm⟩ :=
                pair_present_insertEdgeNC E (mkEdge a b r t)
              exact ⟨x, hsub' x (mem_insertEdgeNC _ hx), hb, hmm⟩
            have hmemBA : ∃ x ∈ E', x.beaconId = b.id ∧ x.matchedBeaconId = a.id := by
              obtain ⟨x, hx, hb, hmm⟩ :=
                pair_present_insertEdgeNC (insertEdgeNC E (mkEdge a b r t)) (mkEdge b a r t)
              exact ⟨x, hsub' x hx, hb, hmm⟩
            have hcAB : conflictsWith E' (mkEdge a b r t) = true :=
              conflictsWith_iff.mpr hmemAB
            have hcBA : conflictsWith E' (mkEdge b a r t) = true :=
              conflictsWith_iff.mpr hmemBA
            unfold pairEdgesStep
            simp only [huser, hded', hcmp, hm, if_false, if_true]
            simp [insertEdges, insertEdgeNC, hcAB, hcBA]
          · unfold pairEdgesStep; simp [huser, hded', hcmp, hm]

/-- Every pair of the iteration list leaves the final fold result unchanged. -/
lemma foldl_step_absorb (cmp : Comparator) (t : Nat)
    (P : List (List Char × BeaconRow × BeaconRow)) (E₀ : List MatchEdgeRow)
    (x : List Char × BeaconRow × BeaconRow) (hx : x ∈ P) :
    pairEdgesStep cmp t
        (P.foldl (fun E y => pairEdgesStep cmp t E y.2.1 y.2.2) E₀) x.2.1 x.2.2
      = P.foldl (fun E y => pairEdgesStep cmp t E y.2.1 y.2.2) E₀ := by
  obtain ⟨s, u, rfl⟩ := List.append_of_mem hx
  rw [List.foldl_append, List.foldl_cons]
  apply pairEdgesStep_absorb
  intro e he
  exact mem_foldl_pairEdgesStep cmp t u he

/-- A fold over pairs that each leave the table unchanged is the identity. -/
lemma foldl_id_of_inert (cmp : Comparator) (t : Nat)
    (P : List (List Char × BeaconRow × BeaconRow)) (E : List MatchEdgeRow)
    (h : ∀ x ∈ P, pairEdgesStep cmp t E x.2.1 x.2.2 = E) :
    P.foldl (fun E y => pairEdgesStep cmp t E y.2.1 y.2.2) E = E := by
  induction P with
  | nil => rfl
  | cons x rest ih =>
      rw [List.foldl_cons, h x (List.mem_cons_self _ _)]
      exact ih (fun y hy => h y (List.mem_cons_of_mem _ hy))

/-- The edge-only semantics is idempotent over a fixed beacon list. -/
lemma runEdges_idem (cmp : Comparator) (t : Nat) (E : List MatchEdgeRow)
    (bs : List BeaconRow) :
    runEdges cmp t (runEdges cmp t E bs) bs = runEdges cmp t E bs := by
  unfold runEdges
  exact foldl_id_of_inert cmp t _ _ (fun x hx => foldl_step_absorb cmp t _ _ x hx)

/-! ## View stability: the run reads no beacon field it writes -/

lemma qualifyingBeacon_view (t : Nat) (b : BeaconRow) :
    qualifyingBeacon t (matchView b) = qualifyingBeacon t b := rfl

lemma tzKey_view (b : BeaconRow) : tzKey (matchView b) = tzKey b := rfl

lemma pairEdgesStep_view (cmp : Comparator) (t : Nat) (E : List MatchEdgeRow)
    (a b : BeaconRow) :
    pairEdgesStep cmp t E (matchView a) (matchView b) = pairEdgesStep cmp t E a b := rfl

lemma filter_qualifying_view (t : Nat) (bs : List BeaconRow) :
    (bs.map matchView).filter (qualifyingBeacon t)
      = (bs.filter (qualifyingBeacon t)).map matchView := by
  induction bs with
  | nil => rfl
  | cons b rest ih =>
      by_cases hq : qualifyingBeacon t b = true
      · simp [List.filter_cons, qualifyingBeacon_view, hq, ih]
      · simp [List.filter_cons, qualifyingBeacon_view, hq, ih]

lemma insertGrouped_view (acc : List (List Char × List BeaconRow)) (tz : List Char)
    (b : BeaconRow) :
    insertGrouped (acc.map (fun g => (g.1, g.2.map matchView))) tz (matchView b)
      = (insertGrouped acc tz b).map (fun g => (g.1, g.2.map matchView)) := by
  induction acc with
  | nil => rfl
  | cons g rest ih =>
      by_cases hk : g.1 = tz
      · simp [insertGrouped, hk]
      · simp [insertGrouped, hk, ih]

lemma groupByTimezone_view (bs : List BeaconRow) :
    groupByTimezone (bs.map matchView)
      = (groupByTimezone bs).map (fun g => (g.1, g.2.map matchView)) := by
  have main : ∀ (bs : List BeaconRow) (acc : List (List Char × List BeaconRow)),
      (bs.map matchView).foldl (fun acc b => insertGrouped acc (tzKey b) b)
          (acc.map (fun g => (g.1, g.2.map matchView)))
        = (bs.foldl (fun acc b => insertGrouped acc (tzKey b) b) acc).map
            (fun g => (g.1, g.2.map matchView)) := by
    intro bs
    induction bs with
    | nil => intro acc; rfl
    | cons b rest ih =>
        intro acc
        simp only [List.map_cons, List.foldl_cons, tzKey_view]
        rw [insertGrouped_view, ih]
  simpa [groupByTimezone] using main bs []

lemma pairsOf_map {α β : Type} (f : α → β) (l : List α) :
    pairsOf (l.map f) = (pairsOf l).map (fun p => (f p.1, f p.2)) := by
  induction l with
  | nil => rfl
  | cons x rest ih => simp [pairsOf, ih, List.map_map]

lemma pairTzList_view (groups : List (List Char × List BeaconRow)) :
    pairTzList (groups.map (fun g => (g.1, g.2.map matchView)))
      = (pairTzList groups).map (fun x => (x.1, matchView x.2.1, matchView x.2.2)) := by
  induction groups with
  | nil => rfl
  | cons g rest ih =>
      simp only [pairTzList, List.map_cons, List.flatMap_cons] at *
      rw [ih, pairsOf_map]
      simp [List.map_map]

/-- The edge-only semantics is invariant under erasing lastMatchedAt. -/
lemma runEdges_map_view (cmp : Comparator) (t : Nat) (E : List MatchEdgeRow)
    (bs : List BeaconRow) :
    runEdges cmp t E (bs.map matchView) = runEdges cmp t E bs := by
  unfold runEdges
  rw [filter_qualifying_view, groupByTimezone_view, pairTzList_view, List.foldl_map]
  rfl

/-- One pair iteration never changes the view of any beacon. -/
lemma processPair_beacons_view (cmp : Comparator) (t : Nat) (tz : List Char)
    (acc : RunAcc) (a b : BeaconRow) :
    (processPair cmp t tz acc a b).db.beacons.map matchView
      = acc.db.beacons.map matchView := by
  unfold processPair
  split
  · rfl
  · split
    · rfl
    · split
      · rfl
      · split
        · simp only [List.map_map]
          apply List.map_congr_left
          intro x _
          by_cases hid : x.id = a.id ∨ x.id = b.id <;> simp [hid, matchView]
        · rfl

/-- A whole run never changes the view of any beacon. -/
lemma run_beacons_view (cmp : Comparator) (t : Nat) (db : Db) :
    (runBeaconMatching cmp t db).db.beacons.map matchView
      = db.beacons.map matchView := by
  have main : ∀ (P : List (List Char × BeaconRow × BeaconRow)) (acc : RunAcc),
      ((P.foldl (fun acc x => processPair cmp t x.1 acc x.2.1 x.2.2) acc).db.beacons.map
          matchView)
        = acc.db.beacons.map matchView := by
    intro P
    induction P with
    | nil => intro acc; rfl
    | cons x rest ih =>
        intro acc
        rw [List.foldl_cons, ih, processPair_beacons_view]
  by_cases h : (db.beacons.filter (qualifyingBeacon t)).length < 2
  · unfold runBeaconMatching
    rw [if_pos h]
    rfl
  · unfold runBeaconMatching
    rw [if_neg h, foldl_groups_flat, main]
    rfl

/-! ## Claim C2 -/

/-- C2: invoking the beacon match engine run twice in immediate succession
(same clock reading, deterministic comparator) over the unchanged store
creates zero additional MatchEdge rows on the second run: every pair whose
edges were created by the first run is caught by the 24-hour idempotency
guard before the comparator is invoked, and every other pair behaves as in
the first run, adding nothing. -/
theorem beacon_run_idempotent (cmp : Comparator) (t : Nat) (db : Db) :
    (runBeaconMatching cmp t (runBeaconMatching cmp t db).db).db.beaconMatches
      = (runBeaconMatching cmp t db).db.beaconMatches := by
  rw [run_edges_eq cmp t (runBeaconMatching cmp t db).db]
  calc runEdges cmp t (runBeaconMatching cmp t db).db.beaconMatches
        (runBeaconMatching cmp t db).db.beacons
      = runEdges cmp t (runBeaconMatching cmp t db).db.beaconMatches
          ((runBeaconMatching cmp t db).db.beacons.map matchView) :=
        (runEdges_map_view cmp t _ _).symm
    _ = runEdges cmp t (runBeaconMatching cmp t db).db.beaconMatches
          (db.beacons.map matchView) := by rw [run_beacons_view]
    _ = runEdges cmp t (runBeaconMatching cmp t db).db.beaconMatches db.beacons :=
        runEdges_map_view cmp t _ _
    _ = runEdges cmp t (runEdges cmp t db.beaconMatches db.beacons) db.beacons := by
        rw [run_edges_eq]
    _ = runEdges cmp t db.beaconMatches db.beacons := runEdges_idem cmp t _ _
    _ = (runBeaconMatching cmp t db).db.beaconMatches := (run_edges_eq cmp t db).symm

/-! ## Claim C3: symmetric edge creation -/

/-- e' is the reverse directed edge of e, carrying identical score, reason
and creation time. -/
def mirrors (e' e : MatchEdgeRow) : Prop :=
  e'.beaconId = e.matchedBeaconId ∧ e'.matchedBeaconId = e.beaconId ∧
    e'.similarityScore = e.similarityScore ∧ e'.matchReason = e.matchReason ∧
    e'.createdAt = e.createdAt

instance (e' e : MatchEdgeRow) : Decidable (mirrors e' e) := by
  unfold mirrors; infer_instance

/-- Every edge of the table has its reverse in the table with identical
score, reason and creation time. -/
def PairSym (E : List MatchEdgeRow) : Prop :=
  ∀ e ∈ E, ∃ e' ∈ E, mirrors e' e

instance (E : List MatchEdgeRow) : Decidable (PairSym E) := by
  unfold PairSym; infer_instance

lemma conflictsWith_mkEdge_iff {E : List MatchEdgeRow} {a b : BeaconRow}
    {r : MatchResult} {t : Nat} :
    conflictsWith E (mkEdge a b r t) = true
      ↔ ∃ x ∈ E, x.beaconId = a.id ∧ x.matchedBeaconId = b.id := by
  simp [conflictsWith_iff, mkEdge]

/-- Under pair symmetry of the table, one pair iteration preserves the
initial rows, pair symmetry, and the invariant that every row not initially
present has a reverse row, also not initially present, with identical
score, reason and creation time. -/
lemma pairEdgesStep_sym (cmp : Comparator) (t : Nat) (E₀ E : List MatchEdgeRow)
    (a b : BeaconRow)
    (hsub : ∀ x ∈ E₀, x ∈ E) (hsym : PairSym E)
    (hnew : ∀ e ∈ E, e ∉ E₀ → ∃ e' ∈ E, e' ∉ E₀ ∧ mirrors e' e) :
    (∀ x ∈ E₀, x ∈ pairEdgesStep cmp t E a b) ∧
      PairSym (pairEdgesStep cmp t E a b) ∧
      (∀ e ∈ pairEdgesStep cmp t E a b, e ∉ E₀ →
        ∃ e' ∈ pairEdgesStep cmp t E a b, e' ∉ E₀ ∧ mirrors e' e) := by
  by_cases huser : a.userId = b.userId
  · have h : pairEdgesStep cmp t E a b = E := by
      unfold pairEdgesStep; simp [huser]
    rw [h]; exact ⟨hsub, hsym, hnew⟩
  · by_cases hded : hasRecentEdge E t a.id b.id = true
    · have h : pairEdgesStep cmp t E a b = E := by
        unfold pairEdgesStep; simp [huser, hded]
      rw [h]; exact ⟨hsub, hsym, hnew⟩
    · rcases hcmp : cmp (beaconIntent a) (beaconKeywords a) (beaconIntent b)
          (beaconKeywords b) with err | r
      · have h : pairEdgesStep cmp t E a b = E := by
          unfold pairEdgesStep; simp [huser, hded, hcmp]
        rw [h]; exact ⟨hsub, hsym, hnew⟩
      · by_cases hm : r.isMatch = true
        case neg =>
          have h : pairEdgesStep cmp t E a b = E := by
            unfold pairEdgesStep; simp [huser, hded, hcmp, hm]
          rw [h]; exact ⟨hsub, hsym, hnew⟩
        case pos =>
          have hrw : pairEdgesStep cmp t E a b
              = insertEdges E [mkEdge a b r t, mkEdge b a r t] := by
            unfold pairEdgesStep; simp [huser, hded, hcmp, hm]
          rw [hrw]
          by_cases hc1 : conflictsWith E (mkEdge a b r t) = true
          · -- the forward pair is present, so by symmetry the reverse is too
            have hc2 : conflictsWith E (mkEdge b a r t) = true := by
              rw [conflictsWith_mkEdge_iff] at hc1
              obtain ⟨x, hx, hxb, hxm⟩ := hc1
              obtain ⟨y, hy, hym⟩ := hsym x hx
              rw [conflictsWith_mkEdge_iff]
              exact ⟨y, hy, hym.1.trans hxm, hym.2.1.trans hxb⟩
            have heq : insertEdges E [mkEdge a b r t, mkEdge b a r t] = E := by
              simp [insertEdges, insertEdgeNC, hc1, hc2]
            rw [heq]; exact ⟨hsub, hsym, hnew⟩
          · have hc1' : conflictsWith E (mkEdge a b r t) = false := by
              simpa using hc1
            have hc2 : conflictsWith E (mkEdge b a r t) = false := by
              by_contra hc2
              have hc2' : conflictsWith E (mkEdge b a r t) = true := by
                simpa using hc2
              rw [conflictsWith_mkEdge_iff] at hc2'
              obtain ⟨y, hy, hyb, hym⟩ := hc2'
              obtain ⟨x, hx, hxm⟩ := hsym y hy
              exact hc1 (conflictsWith_mkEdge_iff.mpr
                ⟨x, hx, hxm.1.trans hym, hxm.2.1.trans hyb⟩)
            have hnotmem1 : mkEdge a b r t ∉ E := by
              intro hmem
              exact hc1 (conflictsWith_iff.mpr ⟨_, hmem, rfl, rfl⟩)
            have hnotmem2 : mkEdge b a r t ∉ E := by
              intro hmem
              have h := conflictsWith_iff.mpr ⟨_, hmem, rfl, rfl⟩
              simp [hc2] at h
            by_cases hab : a.id = b.id
            · -- degenerate self-pair: the second insert conflicts with the first
              have hed : mkEdge b a r t = mkEdge a b r t := by
                simp [mkEdge, hab]
              have hstep : insertEdges E [mkEdge a b r t, mkEdge b a r t]
                  = E ++ [mkEdge a b r t] := by
                have hcafter : conflictsWith (E ++ [mkEdge a b r t]) (mkEdge b a r t)
                    = true := by
                  rw [conflictsWith_mkEdge_iff]
                  exact ⟨mkEdge a b r t,
                    List.mem_append_right _ (List.mem_singleton.mpr rfl), by simp [mkEdge, hab],
                    by simp [mkEdge, hab]⟩
                simp [insertEdges, insertEdgeNC, hc1', hcafter]
              rw [hstep]
              refine ⟨fun x hx => List.mem_append_left _ (hsub x hx), ?_, ?_⟩
              · intro e he
                rcases List.mem_append.mp he with he | he
                · obtain ⟨e', he', hm⟩ := hsym e he
                  exact ⟨e', List.mem_append_left _ he', hm⟩
                · rw [List.mem_singleton.mp he]
                  refine ⟨mkEdge a b r t,
                    List.mem_append_right _ (List.mem_singleton.mpr rfl), ?_⟩
                  simp [mirrors, mkEdge, hab]
              · intro e he hnot
                rcases List.mem_append.mp he with he | he
                · obtain ⟨e', he', hnot', hm⟩ := hnew e he hnot
                  exact ⟨e', List.mem_append_left _ he', hnot', hm⟩
                · rw [List.mem_singleton.mp he]
                  refine ⟨mkEdge a b r t,
                    List.mem_append_right _ (List.mem_singleton.mpr rfl),
                    fun hmem => hnotmem1 (hsub _ hmem), ?_⟩
                  simp [mirrors, mkEdge, hab]
            · -- both directed edges are new
              have hcafter : conflictsWith (E ++ [mkEdge a b r t]) (mkEdge b a r t)
                  = false := by
                rw [Bool.eq_false_iff]
                intro hc
                rw [conflictsWith_mkEdge_iff] at hc
                obtain ⟨y, hy, hyb, hym⟩ := hc
                rcases List.mem_append.mp hy with hy | hy
                · have h : conflictsWith E (mkEdge b a r t) = true :=
                    conflictsWith_mkEdge_iff.mpr ⟨y, hy, hyb, hym⟩
                  simp [hc2] at h
                · rw [List.mem_singleton.mp hy] at hyb
                  simp [mkEdge] at hyb
                  exact hab hyb
              have hstep : insertEdges E [mkEdge a b r t, mkEdge b a r t]
                  = E ++ [mkEdge a b r t, mkEdge b a r t] := by
                simp [insertEdges, insertEdgeNC, hc1', hcafter]
              rw [hstep]
              have hm12 : mirrors (mkEdge b a r t) (mkEdge a b r t) := by
                simp [mirrors, mkEdge]
              have hm21 : mirrors (mkEdge a b r t) (mkEdge b a r t) := by
                simp [mirrors, mkEdge]
              have hmem1 : mkEdge a b r t ∈ E ++ [mkEdge a b r t, mkEdge b a r t] := by
                simp
              have hmem2 : mkEdge b a r t ∈ E ++ [mkEdge a b r t, mkEdge b a r t] := by
                simp
              refine ⟨fun x hx => List.mem_append_left _ (hsub x hx), ?_, ?_⟩
              · intro e he
                rcases List.mem_append.mp he with he | he
                · obtain ⟨e', he', hm⟩ := hsym e he
                  exact ⟨e', List.mem_append_left _ he', hm⟩
                · rcases List.mem_cons.mp he with rfl | he
                  · exact ⟨mkEdge b a r t, hmem2, hm12⟩
                  · rw [List.mem_singleton.mp he]
                    exact ⟨mkEdge a b r t, hmem1, hm21⟩
              · intro e he hnot
                rcases List.mem_append.mp he with he | he
                · obtain ⟨e', he', hnot', hm⟩ := hnew e he hnot
                  exact ⟨e', List.mem_append_left _ he', hnot', hm⟩
                · rcases List.mem_cons.mp he with rfl | he
                  · exact ⟨mkEdge b a r t, hmem2,
                      fun hmem => hnotmem2 (hsub _ hmem), hm12⟩
                  · rw [List.mem_singleton.mp he]
                    exact ⟨mkEdge a b r t, hmem1,
                      fun hmem => hnotmem1 (hsub _ hmem), hm21⟩

/-- The invariant of pairEdgesStep_sym holds of the whole pair fold. -/
lemma foldl_sym (cmp : Comparator) (t : Nat) (E₀ : List MatchEdgeRow)
    (P : List (List Char × BeaconRow × BeaconRow)) (E : List MatchEdgeRow)
    (hsub : ∀ x ∈ E₀, x ∈ E) (hsym : PairSym E)
    (hnew : ∀ e ∈ E, e ∉ E₀ → ∃ e' ∈ E, e' ∉ E₀ ∧ mirrors e' e) :
    (∀ x ∈ E₀, x ∈ P.foldl (fun E y => pairEdgesStep cmp t E y.2.1 y.2.2) E) ∧
      PairSym (P.foldl (fun E y => pairEdgesStep cmp t E y.2.1 y.2.2) E) ∧
      (∀ e ∈ P.foldl (fun E y => pairEdgesStep cmp t E y.2.1 y.2.2) E, e ∉ E₀ →
        ∃ e' ∈ P.foldl (fun E y => pairEdgesStep cmp t E y.2.1 y.2.2) E,
          e' ∉ E₀ ∧ mirrors e' e) := by
  induction P generalizing E with
  | nil => exact ⟨hsub, hsym, hnew⟩
  | cons x rest ih =>
      obtain ⟨h1, h2, h3⟩ := pairEdgesStep_sym cmp t E₀ E x.2.1 x.2.2 hsub hsym hnew
      exact ih _ h1 h2 h3

/-- C3: starting from a pair-symmetric edge table (the only states the
engine itself produces), whenever a run records a match the two directed
MatchEdges are created together: every edge row added by the run has its
reverse row also added by the run, with identical similarity score,
identical reason and identical creation time; pair symmetry of the table is
preserved. -/
theorem match_edges_symmetric (cmp : Comparator) (t : Nat) (db : Db)
    (hsym : PairSym db.beaconMatches) :
    PairSym (runBeaconMatching cmp t db).db.beaconMatches ∧
      ∀ e ∈ (runBeaconMatching cmp t db).db.beaconMatches,
        e ∉ db.beaconMatches →
          ∃ e' ∈ (runBeaconMatching cmp t db).db.beaconMatches,
            e' ∉ db.beaconMatches ∧ mirrors e' e := by
  rw [run_edges_eq]
  obtain ⟨_, h2, h3⟩ := foldl_sym cmp t db.beaconMatches
    (pairTzList (groupByTimezone (db.beacons.filter (qualifyingBeacon t))))
    db.beaconMatches (fun x hx => hx) hsym
    (fun e he hnot => absurd he hnot)
  exact ⟨h2, h3⟩

/-! ## Concrete fixtures for witnesses -/

/-- An empty store. -/
def emptyDb : Db :=
  { profiles := [], conversations := [], participants := [], messages := [],
    notifications := [], beacons := [], beaconMatches := [], nextMessageId := 1 }

/-- A qualifying beacon owned by user u with id i, in the UTC bucket. -/
def wbeacon (i u : Nat) : BeaconRow :=
  { id := i, userId := u, rawText := "beacon raw".toList,
    parsedIntent := some ("intent".toList ++ [Char.ofNat (48 + i)]),
    embedding := some ["kw".toList], timezone := some "UTC".toList,
    isActive := true, isSanitized := true, lastMatchedAt := none,
    expiresAt := some 100, createdAt := 0 }

/-- A store holding two qualifying beacons of distinct users. -/
def dbTwoBeacons : Db :=
  { emptyDb with beacons := [wbeacon 1 1, wbeacon 2 2] }

/-- A comparator that always reports a match. -/
def cmpAlwaysMatch : Comparator := fun _ _ _ _ =>
  Except.ok ⟨(4 : Rat) / 5, "both share an interest".toList, true⟩

/-- Witness for match_edges_symmetric: two qualifying UTC beacons of distinct
users and an always-matching comparator; hypotheses discharged by evaluation. -/
theorem match_edges_symmetric_witness :
    PairSym dbTwoBeacons.beaconMatches ∧
      (PairSym (runBeaconMatching cmpAlwaysMatch 10 dbTwoBeacons).db.beaconMatches ∧
        ∀ e ∈ (runBeaconMatching cmpAlwaysMatch 10 dbTwoBeacons).db.beaconMatches,
          e ∉ dbTwoBeacons.beaconMatches →
            ∃ e' ∈ (runBeaconMatching cmpAlwaysMatch 10 dbTwoBeacons).db.beaconMatches,
              e' ∉ dbTwoBeacons.beaconMatches ∧ mirrors e' e) :=
  ⟨by decide, match_edges_symmetric cmpAlwaysMatch 10 dbTwoBeacons (by decide)⟩

/-! ## Claim C9: at most one row per ordered pair, ever -/

/-- The value of the unique constraint for each row: the ordered pair of
beacon ids. -/
def edgeKeys (E : List MatchEdgeRow) : List (Nat × Nat) :=
  E.map (fun e => (e.beaconId, e.matchedBeaconId))

lemma edgeKeys_nodup_insertEdgeNC {E : List MatchEdgeRow} (e : MatchEdgeRow)
    (h : (edgeKeys E).Nodup) : (edgeKeys (insertEdgeNC E e)).Nodup := by
  unfold insertEdgeNC
  split
  · exact h
  · next hc =>
    have hnot : (e.beaconId, e.matchedBeaconId) ∉ edgeKeys E := by
      intro hmem
      simp only [edgeKeys, List.mem_map, Prod.mk.injEq] at hmem
      obtain ⟨x, hx, h1, h2⟩ := hmem
      exact hc (conflictsWith_iff.mpr ⟨x, hx, h1, h2⟩)
    have hkeys : edgeKeys (E ++ [e])
        = edgeKeys E ++ [(e.beaconId, e.matchedBeaconId)] := by
      simp [edgeKeys]
    rw [hkeys]
    refine List.Nodup.append h (List.nodup_singleton _) ?_
    intro x hx hmem
    rw [List.mem_singleton] at hmem
    subst hmem
    exact hnot hx

lemma edgeKeys_nodup_insertEdges {E : List MatchEdgeRow} (l : List MatchEdgeRow)
    (h : (edgeKeys E).Nodup) : (edgeKeys (insertEdges E l)).Nodup := by
  induction l generalizing E with
  | nil => exact h
  | cons x rest ih => exact ih (edgeKeys_nodup_insertEdgeNC x h)

lemma edgeKeys_nodup_pairEdgesStep (cmp : Comparator) (t : Nat)
    {E : List MatchEdgeRow} (a b : BeaconRow) (h : (edgeKeys E).Nodup) :
    (edgeKeys (pairEdgesStep cmp t E a b)).Nodup := by
  unfold pairEdgesStep
  split
  · exact h
  · split
    · exact h
    · split
      · exact h
      · split
        · exact edgeKeys_nodup_insertEdges _ h
        · exact h

lemma edgeKeys_nodup_foldl (cmp : Comparator) (t : Nat)
    (P : List (List Char × BeaconRow × BeaconRow)) {E : List MatchEdgeRow}
    (h : (edgeKeys E).Nodup) :
    (edgeKeys (P.foldl (fun E y => pairEdgesStep cmp t E y.2.1 y.2.2) E)).Nodup := by
  induction P generalizing E with
  | nil => exact h
  | cons x rest ih => exact ih (edgeKeys_nodup_pairEdgesStep cmp t _ _ h)

/-- C9: when the edge table satisfies the unique (beaconId, matchedBeaconId)
constraint, it still satisfies it after any run: inserts go through
onConflictDoNothing, so re-matching an already recorded ordered pair — even
more than 24 hours later, past the idempotency window — adds no second row
for that ordered pair. -/
theorem edge_unique_per_ordered_pair (cmp : Comparator) (t : Nat) (db : Db)
    (h : (edgeKeys db.beaconMatches).Nodup) :
    (edgeKeys (runBeaconMatching cmp t db).db.beaconMatches).Nodup := by
  rw [run_edges_eq]
  exact edgeKeys_nodup_foldl cmp t _ h

/-- Witness for edge_unique_per_ordered_pair at a concrete store. -/
theorem edge_unique_per_ordered_pair_witness :
    (edgeKeys dbTwoBeacons.beaconMatches).Nodup ∧
      (edgeKeys (runBeaconMatching cmpAlwaysMatch 10 dbTwoBeacons).db.beaconMatches).Nodup :=
  ⟨by decide, edge_unique_per_ordered_pair cmpAlwaysMatch 10 dbTwoBeacons (by decide)⟩

/-! ## Claim C7: a comparator failure skips only its own pair -/

/-- The comparison counter is never read by the pair body, so an offset on
it commutes with one iteration. -/
lemma processPair_comparisons_shift (cmp : Comparator) (t : Nat) (tz : List Char)
    (acc : RunAcc) (a b : BeaconRow) :
    processPair cmp t tz { acc with totalComparisons := acc.totalComparisons + 1 } a b
      = { processPair cmp t tz acc a b with
          totalComparisons := (processPair cmp t tz acc a b).totalComparisons + 1 } := by
  by_cases huser : a.userId = b.userId
  · unfold processPair; simp [huser]
  · by_cases hded : hasRecentEdge acc.db.beaconMatches t a.id b.id = true
    · unfold processPair; simp [huser, hded]
    · rcases hcmp : cmp (beaconIntent a) (beaconKeywords a) (beaconIntent b)
          (beaconKeywords b) with err | r
      · unfold processPair; simp [huser, hded, hcmp]
      · by_cases hm : r.isMatch = true <;>
          · unfold processPair; simp [huser, hded, hcmp, hm]

/-- The offset commutes with the whole fold. -/
lemma foldl_comparisons_shift (cmp : Comparator) (t : Nat)
    (P : List (List Char × BeaconRow × BeaconRow)) (acc : RunAcc) :
    P.foldl (fun a x => processPair cmp t x.1 a x.2.1 x.2.2)
        { acc with totalComparisons := acc.totalComparisons + 1 }
      = { P.foldl (fun a x => processPair cmp t x.1 a x.2.1 x.2.2) acc with
          totalComparisons :=
            (P.foldl (fun a x => processPair cmp t x.1 a x.2.1 x.2.2) acc).totalComparisons
              + 1 } := by
  induction P generalizing acc with
  | nil => rfl
  | cons x rest ih =>
      simp only [List.foldl_cons]
      rw [processPair_comparisons_shift, ih]

lemma mem_insertEdgeNC_elim {E : List MatchEdgeRow} {e x : MatchEdgeRow}
    (h : e ∈ insertEdgeNC E x) : e ∈ E ∨ e = x := by
  unfold insertEdgeNC at h
  split at h
  · exact Or.inl h
  · rcases List.mem_append.mp h with h | h
    · exact Or.inl h
    · exact Or.inr (List.mem_singleton.mp h)

/-- Every row of the table after one pair iteration was already present or
carries that pair's ids, in one of the two orders. -/
lemma pairEdgesStep_provenance (cmp : Comparator) (t : Nat)
    {E : List MatchEdgeRow} {e : MatchEdgeRow} (a b : BeaconRow)
    (h : e ∈ pairEdgesStep cmp t E a b) :
    e ∈ E ∨ (e.beaconId = a.id ∧ e.matchedBeaconId = b.id)
      ∨ (e.beaconId = b.id ∧ e.matchedBeaconId = a.id) := by
  unfold pairEdgesStep at h
  split at h
  · exact Or.inl h
  · split at h
    · exact Or.inl h
    · split at h
      · exact Or.inl h
      · split at h
        · next r _ =>
          unfold insertEdges at h
          simp only [List.foldl_cons, List.foldl_nil] at h
          rcases mem_insertEdgeNC_elim h with h | h
          · rcases mem_insertEdgeNC_elim h with h | h
            · exact Or.inl h
            · subst h; exact Or.inr (Or.inl ⟨rfl, rfl⟩)
          · subst h; exact Or.inr (Or.inr ⟨rfl, rfl⟩)
        · exact Or.inl h

/-- Provenance over a whole pair fold. -/
lemma foldl_edges_provenance (cmp : Comparator) (t : Nat)
    (P : List (List Char × BeaconRow × BeaconRow)) {E : List MatchEdgeRow}
    {e : MatchEdgeRow}
    (h : e ∈ P.foldl (fun E y => pairEdgesStep cmp t E y.2.1 y.2.2) E) :
    e ∈ E ∨ ∃ x ∈ P,
      (e.beaconId = x.2.1.id ∧ e.matchedBeaconId = x.2.2.id)
        ∨ (e.beaconId = x.2.2.id ∧ e.matchedBeaconId = x.2.1.id) := by
  induction P generalizing E with
  | nil => exact Or.inl h
  | cons x rest ih =>
      rw [List.foldl_cons] at h
      rcases ih h with h | ⟨y, hy, hids⟩
      · rcases pairEdgesStep_provenance cmp t x.2.1 x.2.2 h with h | h
        · exact Or.inl h
        · exact Or.inr ⟨x, List.mem_cons_self _ _, h⟩
      · exact Or.inr ⟨y, List.mem_cons_of_mem _ hy, hids⟩

/-- The idempotency guard for a pair stays false across iterations of pairs
not carrying the same unordered id pair. -/
lemma hasRecentEdge_false_after (cmp : Comparator) (t : Nat)
    (P : List (List Char × BeaconRow × BeaconRow)) (acc : RunAcc) (i j : Nat)
    (hded : hasRecentEdge acc.db.beaconMatches t i j = false)
    (hP : ∀ x ∈ P, ¬((x.2.1.id = i ∧ x.2.2.id = j) ∨ (x.2.1.id = j ∧ x.2.2.id = i))) :
    hasRecentEdge
        ((P.foldl (fun a x => processPair cmp t x.1 a x.2.1 x.2.2) acc).db.beaconMatches)
        t i j = false := by
  rw [Bool.eq_false_iff]
  intro htrue
  simp only [hasRecentEdge, List.any_eq_true, Bool.and_eq_true, Bool.or_eq_true,
    beq_iff_eq, decide_eq_true_eq] at htrue
  obtain ⟨e, he, hids, hrecent⟩ := htrue
  rw [foldl_processPair_edges] at he
  rcases foldl_edges_provenance cmp t P he with he | ⟨x, hx, hxids⟩
  · have : hasRecentEdge acc.db.beaconMatches t i j = true := by
      simp only [hasRecentEdge, List.any_eq_true, Bool.and_eq_true, Bool.or_eq_true,
        beq_iff_eq, decide_eq_true_eq]
      exact ⟨e, he, hids, hrecent⟩
    rw [hded] at this; cases this
  · apply hP x hx
    rcases hids with ⟨h1, h2⟩ | ⟨h1, h2⟩ <;> rcases hxids with ⟨h3, h4⟩ | ⟨h3, h4⟩
    · exact Or.inl ⟨h3.symm.trans h1, h4.symm.trans h2⟩
    · exact Or.inr ⟨h4.symm.trans h2, h3.symm.trans h1⟩
    · exact Or.inr ⟨h3.symm.trans h1, h4.symm.trans h2⟩
    · exact Or.inl ⟨h4.symm.trans h2, h3.symm.trans h1⟩

/-- A pair whose comparison throws contributes only the comparison count. -/
lemma processPair_error (cmp : Comparator) (t : Nat) (tz : List Char)
    (acc : RunAcc) (a b : BeaconRow)
    (huser : a.userId ≠ b.userId)
    (hded : hasRecentEdge acc.db.beaconMatches t a.id b.id = false)
    (herr : cmp (beaconIntent a) (beaconKeywords a) (beaconIntent b) (beaconKeywords b)
        = Except.error ()) :
    processPair cmp t tz acc a b
      = { acc with totalComparisons := acc.totalComparisons + 1 } := by
  unfold processPair
  simp [huser, hded, herr]

/-- C7: when the comparator throws for one enumerated pair that would
otherwise be compared (distinct owners, no recent edge, not duplicated
earlier in the enumeration), the run completes and equals the run over the
remaining pairs, except that the failed comparison is still counted: the
pair is skipped and every other pair is evaluated exactly as it would have
been. -/
theorem comparator_error_isolated (cmp : Comparator) (t : Nat) (db : Db)
    (tz : List Char) (a b : BeaconRow)
    (P₁ P₂ : List (List Char × BeaconRow × BeaconRow))
    (hq : ¬(db.beacons.filter (qualifyingBeacon t)).length < 2)
    (hsplit : pairTzList (groupByTimezone (db.beacons.filter (qualifyingBeacon t)))
        = P₁ ++ (tz, a, b) :: P₂)
    (huser : a.userId ≠ b.userId)
    (hded : hasRecentEdge db.beaconMatches t a.id b.id = false)
    (hP₁ : ∀ x ∈ P₁,
      ¬((x.2.1.id = a.id ∧ x.2.2.id = b.id) ∨ (x.2.1.id = b.id ∧ x.2.2.id = a.id)))
    (herr : cmp (beaconIntent a) (beaconKeywords a) (beaconIntent b) (beaconKeywords b)
        = Except.error ()) :
    runBeaconMatching cmp t db
      = { (P₁ ++ P₂).foldl (fun acc x => processPair cmp t x.1 acc x.2.1 x.2.2)
            (initAcc db) with
          totalComparisons :=
            ((P₁ ++ P₂).foldl (fun acc x => processPair cmp t x.1 acc x.2.1 x.2.2)
              (initAcc db)).totalComparisons + 1 } := by
  unfold runBeaconMatching
  rw [if_neg hq, foldl_groups_flat, hsplit, List.foldl_append, List.foldl_cons]
  have hmid : hasRecentEdge
      ((P₁.foldl (fun a x => processPair cmp t x.1 a x.2.1 x.2.2)
        (initAcc db)).db.beaconMatches) t a.id b.id = false := by
    apply hasRecentEdge_false_after cmp t P₁ (initAcc db) a.id b.id hded hP₁
  rw [processPair_error cmp t tz _ a b huser hmid herr,
    foldl_comparisons_shift, List.foldl_append]

/-- A store holding three qualifying beacons of distinct users, same bucket. -/
def dbThreeBeacons : Db :=
  { emptyDb with beacons := [wbeacon 1 1, wbeacon 2 2, wbeacon 3 3] }

/-- A comparator that throws exactly on the first enumerated pair and
matches every other pair. -/
def cmpFailFirstPair : Comparator := fun iA _ iB _ =>
  if iA = beaconIntent (wbeacon 1 1) ∧ iB = beaconIntent (wbeacon 2 2) then
    Except.error ()
  else Except.ok ⟨(7 : Rat) / 10, "related goals".toList, true⟩

/-- Witness for comparator_error_isolated: three qualifying same-bucket
beacons, comparator throwing on the first pair; hypotheses discharged by
evaluation. -/
theorem comparator_error_isolated_witness :
    (¬(dbThreeBeacons.beacons.filter (qualifyingBeacon 10)).length < 2) ∧
      pairTzList (groupByTimezone (dbThreeBeacons.beacons.filter (qualifyingBeacon 10)))
        = [] ++ ("UTC".toList, wbeacon 1 1, wbeacon 2 2)
            :: [("UTC".toList, wbeacon 1 1, wbeacon 3 3),
                ("UTC".toList, wbeacon 2 2, wbeacon 3 3)] ∧
      cmpFailFirstPair (beaconIntent (wbeacon 1 1)) (beaconKeywords (wbeacon 1 1))
          (beaconIntent (wbeacon 2 2)) (beaconKeywords (wbeacon 2 2))
        = Except.error () ∧
      runBeaconMatching cmpFailFirstPair 10 dbThreeBeacons
        = { [("UTC".toList, wbeacon 1 1, wbeacon 3 3),
             ("UTC".toList, wbeacon 2 2, wbeacon 3 3)].foldl
              (fun acc x => processPair cmpFailFirstPair 10 x.1 acc x.2.1 x.2.2)
              (initAcc dbThreeBeacons) with
            totalComparisons :=
              ([("UTC".toList, wbeacon 1 1, wbeacon 3 3),
                ("UTC".toList, wbeacon 2 2, wbeacon 3 3)].foldl
                  (fun acc x => processPair cmpFailFirstPair 10 x.1 acc x.2.1 x.2.2)
                  (initAcc dbThreeBeacons)).totalComparisons + 1 } :=
  ⟨by decide, by decide, by rfl,
    comparator_error_isolated cmpFailFirstPair 10 dbThreeBeacons "UTC".toList
      (wbeacon 1 1) (wbeacon 2 2) []
      [("UTC".toList, wbeacon 1 1, wbeacon 3 3), ("UTC".toList, wbeacon 2 2, wbeacon 3 3)]
      (by decide) (by decide) (by decide) (by decide) (by decide) (by rfl)⟩

/-! ## Chat claims: fixtures -/

/-- Session of user dave (id 3) in the UTC timezone room. -/
def sessDave : SessionData := ⟨3, "UTC".toList, "dave".toList⟩

/-- A store with three profiles: bob (1), carol (2), dave (3). -/
def dbProfiles : Db :=
  { emptyDb with profiles :=
      [⟨1, "bob".toList, some "UTC".toList, none⟩,
       ⟨2, "carol".toList, some "UTC".toList, none⟩,
       ⟨3, "dave".toList, some "UTC".toList, none⟩] }

/-- A store with conversation 5 between users 7 and 8 (dave not a
participant). -/
def dbDmCase : Db :=
  { dbProfiles with
    conversations := [⟨5, 0, 0⟩],
    participants := [⟨5, 7⟩, ⟨5, 8⟩] }

/-! ## Claim C5: non-participant dm is dropped silently -/

/-- C5: a dm:message whose sender has no persisted participant row for the
target conversation leaves the store unchanged and performs no broadcast,
no notification and no push — the event is dropped with no error surfaced. -/
theorem dm_nonparticipant_dropped (db : Db) (sess : SessionData) (now cid : Nat)
    (raw : List Char)
    (h : ∀ p ∈ db.participants, ¬(p.conversationId = cid ∧ p.userId = sess.userId)) :
    dmMessage db sess now cid raw = ⟨db, [], []⟩ := by
  have hpart : db.participants.filter
      (fun p => p.conversationId == cid && p.userId == sess.userId) = [] := by
    rw [List.filter_eq_nil_iff]
    intro p hp
    simp only [Bool.and_eq_true, beq_iff_eq, not_and]
    intro h1 h2
    exact h p hp ⟨h1, h2⟩
  by_cases hval : trimChars raw = [] ∨ 2000 < (trimChars raw).length
  · unfold dmMessage
    simp [hval]
  · unfold dmMessage
    simp [hval, hpart]

/-- Witness for dm_nonparticipant_dropped: dave (id 3) targets conversation
5 whose participants are users 7 and 8. -/
theorem dm_nonparticipant_dropped_witness :
    (∀ p ∈ dbDmCase.participants, ¬(p.conversationId = 5 ∧ p.userId = sessDave.userId)) ∧
      dmMessage dbDmCase sessDave 0 5 "hello there".toList = ⟨dbDmCase, [], []⟩ :=
  ⟨by decide, dm_nonparticipant_dropped dbDmCase sessDave 0 5 "hello there".toList
    (by decide)⟩

/-! ## Claim C6: empty or over-long content is dropped silently -/

/-- C6: when the trimmed content is empty or longer than 2000 characters,
both the room:message and the dm:message handlers leave the store unchanged
and perform no broadcast, no notification and no push — the event is
dropped with no error surfaced. -/
theorem invalid_content_dropped (db : Db) (sess : SessionData) (now cid : Nat)
    (raw : List Char)
    (h : trimChars raw = [] ∨ 2000 < (trimChars raw).length) :
    roomMessage db sess now raw = ⟨db, [], []⟩ ∧
      dmMessage db sess now cid raw = ⟨db, [], []⟩ := by
  constructor
  · unfold roomMessage
    simp [h]
  · unfold dmMessage
    simp [h]

/-- Witness for invalid_content_dropped: whitespace-only content trims to
the empty string. -/
theorem invalid_content_dropped_witness :
    (trimChars "   ".toList = [] ∨ 2000 < (trimChars "   ".toList).length) ∧
      (roomMessage dbDmCase sessDave 0 "   ".toList = ⟨dbDmCase, [], []⟩ ∧
        dmMessage dbDmCase sessDave 0 5 "   ".toList = ⟨dbDmCase, [], []⟩) :=
  ⟨Or.inl (by decide),
    invalid_content_dropped dbDmCase sessDave 0 5 "   ".toList (Or.inl (by decide))⟩

/-! ## Claim C1: the handler resolves only the first mention token -/

/-- C1 (code bug): for the message "hi @bob and @carol" with bob (id 1) and
carol (id 2) both present in the directory, the room:message handler queries
the directory with only the first token, so the persisted mentions are
exactly the single id 1, carol's id 2 is absent from the mentions, and
exactly one mention notification is created instead of two. -/
theorem first_mention_only_resolved :
    ((roomMessage dbProfiles sessDave 0 "hi @bob and @carol".toList).db.notifications.length
        = 1) ∧
      (∀ m ∈ (roomMessage dbProfiles sessDave 0 "hi @bob and @carol".toList).db.messages,
        m.mentions = [1] ∧ 2 ∉ m.mentions) ∧
      (∀ p ∈ dbProfiles.profiles, p.handle = "carol".toList → p.userId = 2) ∧
      mentionHandles (trimChars "hi @bob and @carol".toList)
        = ["bob".toList, "carol".toList] := by
  decide

/-! ## Claim C10: notification bodies are truncated to 100 characters -/

/-- C10: every notification row created by the room:message or dm:message
handler carries as body the first 100 characters of the trimmed content,
while the persisted message row and the room/DM broadcast payload carry the
full trimmed content. -/
theorem notification_body_truncated (db : Db) (sess : SessionData) (now cid : Nat)
    (raw : List Char) :
    (∀ n ∈ (roomMessage db sess now raw).db.notifications,
        n ∈ db.notifications ∨ n.body = (trimChars raw).take 100) ∧
      (∀ m ∈ (roomMessage db sess now raw).db.messages,
        m ∈ db.messages ∨ m.content = trimChars raw) ∧
      (∀ room p, Emit.roomMsg room p ∈ (roomMessage db sess now raw).emits →
        p.content = trimChars raw) ∧
      (∀ n ∈ (dmMessage db sess now cid raw).db.notifications,
        n ∈ db.notifications ∨ n.body = (trimChars raw).take 100) ∧
      (∀ m ∈ (dmMessage db sess now cid raw).db.messages,
        m ∈ db.messages ∨ m.content = trimChars raw) ∧
      (∀ c p, Emit.dmMsg c p ∈ (dmMessage db sess now cid raw).emits →
        p.content = trimChars raw) := by
  have hroom : (∀ n ∈ (roomMessage db sess now raw).db.notifications,
      n ∈ db.notifications ∨ n.body = (trimChars raw).take 100) ∧
      (∀ m ∈ (roomMessage db sess now raw).db.messages,
        m ∈ db.messages ∨ m.content = trimChars raw) ∧
      (∀ room p, Emit.roomMsg room p ∈ (roomMessage db sess now raw).emits →
        p.content = trimChars raw) := by
    by_cases hval : trimChars raw = [] ∨ 2000 < (trimChars raw).length
    · simp only [roomMessage, if_pos hval]
      refine ⟨fun n hn => Or.inl hn, fun m hm => Or.inl hm, ?_⟩
      intro room p hp
      simp at hp
    · simp only [roomMessage, if_neg hval]
      refine ⟨?_, ?_, ?_⟩
      · intro n hn
        rcases List.mem_append.mp hn with h | h
        · exact Or.inl h
        · right
          obtain ⟨mid, hmid, rfl⟩ := List.mem_map.mp h
          rfl
      · intro m hm
        rcases List.mem_append.mp hm with h | h
        · exact Or.inl h
        · right
          rw [List.mem_singleton.mp h]
      · intro room p hp
        rcases List.mem_cons.mp hp with heq | hmem
        · injection heq with h1 h2
          subst h2
          rfl
        · exfalso
          obtain ⟨mid, _, hEq⟩ := List.mem_map.mp hmem
          simp at hEq
  have hdm : (∀ n ∈ (dmMessage db sess now cid raw).db.notifications,
      n ∈ db.notifications ∨ n.body = (trimChars raw).take 100) ∧
      (∀ m ∈ (dmMessage db sess now cid raw).db.messages,
        m ∈ db.messages ∨ m.content = trimChars raw) ∧
      (∀ c p, Emit.dmMsg c p ∈ (dmMessage db sess now cid raw).emits →
        p.content = trimChars raw) := by
    by_cases hval : trimChars raw = [] ∨ 2000 < (trimChars raw).length
    · simp only [dmMessage, if_pos hval]
      refine ⟨fun n hn => Or.inl hn, fun m hm => Or.inl hm, ?_⟩
      intro c p hp
      simp at hp
    · by_cases hpart : db.participants.filter
          (fun p => p.conversationId == cid && p.userId == sess.userId) = []
      · simp only [dmMessage, if_neg hval, hpart, if_pos rfl]
        refine ⟨fun n hn => Or.inl hn, fun m hm => Or.inl hm, ?_⟩
        intro c p hp
        simp at hp
      · simp only [dmMessage, if_neg hval, if_neg hpart]
        refine ⟨?_, ?_, ?_⟩
        · intro n hn
          rcases List.mem_append.mp hn with h | h
          · exact Or.inl h
          · right
            obtain ⟨mid, hmid, rfl⟩ := List.mem_map.mp h
            rfl
        · intro m hm
          rcases List.mem_append.mp hm with h | h
          · exact Or.inl h
          · right
            rw [List.mem_singleton.mp h]
        · intro c p hp
          rcases List.mem_cons.mp hp with heq | hmem
          · injection heq with h1 h2
            subst h2
            rfl
          · exfalso
            obtain ⟨mid, _, hEq⟩ := List.mem_map.mp hmem
            simp at hEq
  exact ⟨hroom.1, hroom.2.1, hroom.2.2, hdm.1, hdm.2.1, hdm.2.2⟩

/-- Witness for notification_body_truncated: a room message mentioning bob
creates exactly one notification, whose body the theorem bounds. -/
theorem notification_body_truncated_witness :
    (∀ n ∈ (roomMessage dbProfiles sessDave 0 "hey @bob how are you".toList).db.notifications,
        n ∈ dbProfiles.notifications ∨
          n.body = (trimChars "hey @bob how are you".toList).take 100) ∧
      (roomMessage dbProfiles sessDave 0 "hey @bob how are you".toList).db.notifications.length
        = 1 :=
  ⟨(notification_body_truncated dbProfiles sessDave 0 5 "hey @bob how are you".toList).1,
    by decide⟩

/-! ## Claim C8: shape of the extracted mention tokens -/

/-- Soundness of the scanner: every token it emits is a nonempty run of
word characters, provided the accumulator holds only word characters. -/
lemma scanAux_sound (l : List Char) :
    ∀ (acc : Option (List Char)),
      (∀ s, acc = some s → s.all isWordChar = true) →
      ∀ tok ∈ scanAux l acc, 1 ≤ tok.length ∧ tok.all isWordChar = true := by
  induction l with
  | nil =>
      intro acc hacc tok htok
      cases acc with
      | none => simp [scanAux] at htok
      | some s =>
          simp only [scanAux] at htok
          by_cases hs : s = []
          · rw [if_pos hs] at htok
            simp at htok
          · rw [if_neg hs] at htok
            rw [List.mem_singleton] at htok
            subst htok
            refine ⟨?_, ?_⟩
            · rw [List.length_reverse]
              exact List.length_pos.mpr hs
            · have hall := hacc s rfl
              simp only [List.all_eq_true] at hall ⊢
              intro x hx
              exact hall x (List.mem_reverse.mp hx)
  | cons c rest ih =>
      intro acc hacc tok htok
      cases acc with
      | none =>
          simp only [scanAux] at htok
          by_cases hc : c = '@'
          · rw [if_pos hc] at htok
            exact ih (some [])
              (fun s' hs' => by injection hs' with h; subst h; rfl) tok htok
          · rw [if_neg hc] at htok
            exact ih none (fun s' hs' => by cases hs') tok htok
      | some s =>
          simp only [scanAux] at htok
          by_cases hw : isWordChar c = true
          · rw [if_pos hw] at htok
            refine ih (some (c :: s)) ?_ tok htok
            intro s' hs'
            injection hs' with h
            subst h
            simp [List.all_cons, hw, hacc s rfl]
          · rw [if_neg hw] at htok
            by_cases hs : s = []
            · rw [if_pos hs] at htok
              by_cases hc : c = '@'
              · rw [if_pos hc] at htok
                exact ih (some [])
                  (fun s' hs' => by injection hs' with h; subst h; rfl) tok htok
              · rw [if_neg hc] at htok
                exact ih none (fun s' hs' => by cases hs') tok htok
            · rw [if_neg hs] at htok
              rcases List.mem_cons.mp htok with rfl | htok
              · refine ⟨?_, ?_⟩
                · rw [List.length_reverse]
                  exact List.length_pos.mpr hs
                · have hall := hacc s rfl
                  simp only [List.all_eq_true] at hall ⊢
                  intro x hx
                  exact hall x (List.mem_reverse.mp hx)
              · by_cases hc : c = '@'
                · rw [if_pos hc] at htok
                  exact ih (some [])
                    (fun s' hs' => by injection hs' with h; subst h; rfl) tok htok
                · rw [if_neg hc] at htok
                  exact ih none (fun s' hs' => by cases hs') tok htok

/-- C8 (amended): mention scanning extracts exactly the tokens consisting
of an at sign followed by one or more word characters — no 3-character
lower bound and no 30-character upper bound: every extracted token is a
nonempty all-word-character run. -/
theorem mention_tokens_word_runs (content : List Char) :
    ∀ tok ∈ scanMentions content, 1 ≤ tok.length ∧ tok.all isWordChar = true :=
  scanAux_sound content none (fun s hs => by cases hs)

/-- Witness for mention_tokens_word_runs on a concrete message. -/
theorem mention_tokens_word_runs_witness :
    "ab".toList ∈ scanMentions "see @ab now".toList ∧
      (1 ≤ ("ab".toList).length ∧ ("ab".toList).all isWordChar = true) :=
  ⟨by decide, mention_tokens_word_runs "see @ab now".toList "ab".toList (by decide)⟩

/-- C8 counterexample: a 2-character candidate and a 32-character candidate
are both extracted as mention tokens, contradicting the claimed 3 to 30
word-character bound. -/
theorem mention_token_bounds_counterexample :
    "ab".toList ∈ scanMentions "@ab".toList ∧ ("ab".toList).length < 3 ∧
      ('x' :: List.replicate 31 'y') ∈
        scanMentions ('@' :: 'x' :: List.replicate 31 'y') ∧
      30 < ('x' :: List.replicate 31 'y').length := by
  decide

/-! ## Claim C4: the default bucket is UTC, not unknown -/

/-- A qualifying beacon with no recorded locality. -/
def beaconNoTz : BeaconRow := { wbeacon 4 4 with timezone := none }

/-- C4 counterexample: a beacon with no recorded locality is bucketed under
the key UTC; no bucket named unknown receives it. -/
theorem unknown_bucket_counterexample :
    (¬∃ g ∈ groupByTimezone [beaconNoTz], g.1 = "unknown".toList ∧ beaconNoTz ∈ g.2) ∧
      ∃ g ∈ groupByTimezone [beaconNoTz], g.1 = "UTC".toList ∧ beaconNoTz ∈ g.2 := by
  decide

lemma insertGrouped_keys (tz : List Char) (b : BeaconRow) :
    ∀ (acc : List (List Char × List BeaconRow)),
      (insertGrouped acc tz b).map Prod.fst
        = if tz ∈ acc.map Prod.fst then acc.map Prod.fst
          else acc.map Prod.fst ++ [tz] := by
  intro acc
  induction acc with
  | nil => simp [insertGrouped]
  | cons g rest ih =>
      obtain ⟨k, v⟩ := g
      by_cases hk : k = tz
      · subst hk
        simp [insertGrouped]
      · simp only [insertGrouped, if_neg hk, List.map_cons, ih]
        by_cases hmem : tz ∈ rest.map Prod.fst
        · have hc : tz ∈ k :: rest.map Prod.fst := List.mem_cons_of_mem _ hmem
          rw [if_pos hmem, if_pos hc]
        · have hnc : ¬tz ∈ k :: rest.map Prod.fst := by
            intro hc
            rcases List.mem_cons.mp hc with hc | hc
            · exact hk hc.symm
            · exact hmem hc
          rw [if_neg hmem, if_neg hnc]
          simp

/-- The bucket keys of the grouping are pairwise distinct: one bucket per
locality key. -/
lemma groupKeys_nodup (bs : List BeaconRow) :
    ((groupByTimezone bs).map Prod.fst).Nodup := by
  suffices h : ∀ (bs : List BeaconRow) (acc : List (List Char × List BeaconRow)),
      (acc.map Prod.fst).Nodup →
      ((bs.foldl (fun acc b => insertGrouped acc (tzKey b) b) acc).map Prod.fst).Nodup by
    exact h bs [] (by simp)
  intro bs
  induction bs with
  | nil => intro acc h; exact h
  | cons b rest ih =>
      intro acc h
      refine ih _ ?_
      rw [insertGrouped_keys]
      split
      · exact h
      · next hmem =>
          refine List.Nodup.append h (List.nodup_singleton _) ?_
          intro x hx hmem2
          rw [List.mem_singleton] at hmem2
          subst hmem2
          exact hmem hx

lemma insertGrouped_sound (tz : List Char) (b : BeaconRow) (htz : tzKey b = tz) :
    ∀ (acc : List (List Char × List BeaconRow)),
      (∀ g ∈ acc, ∀ x ∈ g.2, tzKey x = g.1) →
      ∀ g ∈ insertGrouped acc tz b, ∀ x ∈ g.2, tzKey x = g.1 := by
  intro acc
  induction acc with
  | nil =>
      intro _ g hg x hx
      simp only [insertGrouped, List.mem_singleton] at hg
      subst hg
      rw [List.mem_singleton] at hx
      subst hx
      exact htz
  | cons gh rest ih =>
      obtain ⟨k, v⟩ := gh
      intro hacc g hg x hx
      by_cases hk : k = tz
      · simp only [insertGrouped, if_pos hk] at hg
        rcases List.mem_cons.mp hg with rfl | hg
        · rcases List.mem_append.mp hx with hx | hx
          · exact hacc (k, v) (List.mem_cons_self _ _) x hx
          · rw [List.mem_singleton] at hx
            subst hx
            exact htz.trans hk.symm
        · exact hacc g (List.mem_cons_of_mem _ hg) x hx
      · simp only [insertGrouped, if_neg hk] at hg
        rcases List.mem_cons.mp hg with rfl | hg
        · exact hacc (k, v) (List.mem_cons_self _ _) x hx
        · exact ih (fun g' hg' => hacc g' (List.mem_cons_of_mem _ hg')) g hg x hx

/-- Every beacon of a bucket carries that bucket's key (its timezone, or
UTC when none is recorded). -/
lemma groupBy_sound (bs : List BeaconRow) :
    ∀ g ∈ groupByTimezone bs, ∀ x ∈ g.2, tzKey x = g.1 := by
  suffices h : ∀ (bs : List BeaconRow) (acc : List (List Char × List BeaconRow)),
      (∀ g ∈ acc, ∀ x ∈ g.2, tzKey x = g.1) →
      ∀ g ∈ bs.foldl (fun acc b => insertGrouped acc (tzKey b) b) acc,
        ∀ x ∈ g.2, tzKey x = g.1 by
    exact h bs [] (by simp)
  intro bs
  induction bs with
  | nil => intro acc h; exact h
  | cons b rest ih =>
      intro acc h
      exact ih _ (insertGrouped_sound (tzKey b) b rfl acc h)

lemma insertGrouped_flat_perm (tz : List Char) (b : BeaconRow) :
    ∀ (acc : List (List Char × List BeaconRow)),
      ((insertGrouped acc tz b).flatMap Prod.snd).Perm
        (acc.flatMap Prod.snd ++ [b]) := by
  intro acc
  induction acc with
  | nil => simp [insertGrouped]
  | cons g rest ih =>
      obtain ⟨k, v⟩ := g
      by_cases hk : k = tz
      · simp only [insertGrouped, if_pos hk, List.flatMap_cons]
        rw [List.append_assoc, List.append_assoc]
        exact List.Perm.append_left v List.perm_append_comm
      · simp only [insertGrouped, if_neg hk, List.flatMap_cons]
        rw [List.append_assoc]
        exact List.Perm.append_left v ih

/-- The buckets jointly hold exactly the grouped beacons: flattening the
grouping is a permutation of the input. -/
lemma groupBy_flat_perm (bs : List BeaconRow) :
    ((groupByTimezone bs).flatMap Prod.snd).Perm bs := by
  suffices h : ∀ (bs : List BeaconRow) (acc : List (List Char × List BeaconRow)),
      ((bs.foldl (fun acc b => insertGrouped acc (tzKey b) b) acc).flatMap
          Prod.snd).Perm
        (acc.flatMap Prod.snd ++ bs) by
    simpa using h bs []
  intro bs
  induction bs with
  | nil => intro acc; simp
  | cons b rest ih =>
      intro acc
      simp only [List.foldl_cons]
      refine (ih (insertGrouped acc (tzKey b) b)).trans ?_
      refine ((insertGrouped_flat_perm (tzKey b) b acc).append_right rest).trans ?_
      rw [List.append_assoc]
      exact List.Perm.refl _

/-- C4 (amended): the grouping partitions the beacons by locality string
with the default bucket keyed UTC — not unknown — for beacons with no
recorded locality: bucket keys are pairwise distinct, every member of a
bucket carries the bucket's key (timezone, defaulting to UTC), every beacon
lands in the bucket of its key, and the buckets are jointly a permutation
of the input. -/
theorem grouping_partition_default_utc (bs : List BeaconRow) :
    ((groupByTimezone bs).map Prod.fst).Nodup ∧
      (∀ g ∈ groupByTimezone bs, ∀ b ∈ g.2, tzKey b = g.1) ∧
      (∀ b ∈ bs, ∃ g ∈ groupByTimezone bs, g.1 = tzKey b ∧ b ∈ g.2) ∧
      ((groupByTimezone bs).flatMap Prod.snd).Perm bs := by
  refine ⟨groupKeys_nodup bs, groupBy_sound bs, ?_, groupBy_flat_perm bs⟩
  intro b hb
  have hmem : b ∈ (groupByTimezone bs).flatMap Prod.snd :=
    ((groupBy_flat_perm bs).mem_iff).mpr hb
  obtain ⟨g, hg, hbg⟩ := List.mem_flatMap.mp hmem
  exact ⟨g, hg, (groupBy_sound bs g hg b hbg).symm, hbg⟩

/-- Witness for grouping_partition_default_utc: the locality-less beacon
lands in the bucket of its key, which is UTC. -/
theorem grouping_partition_default_utc_witness :
    beaconNoTz ∈ [beaconNoTz, wbeacon 1 1] ∧
      (∃ g ∈ groupByTimezone [beaconNoTz, wbeacon 1 1],
        g.1 = tzKey beaconNoTz ∧ beaconNoTz ∈ g.2) ∧
      tzKey beaconNoTz = "UTC".toList :=
  ⟨by decide,
    (grouping_partition_default_utc [beaconNoTz, wbeacon 1 1]).2.2.1 beaconNoTz
      (by decide),
    by decide⟩

end TribeLife
